import Mathlib

/-!
# Verification of the timelapse encoder (`src/main.rs`)

This file shallowly embeds the core of the Rust program: the RGB → planar
YUV 4:2:0 pixel converter `rgb_to_yuv420p` (including an exact model of its
IEEE-754 binary32 arithmetic), the encoder-draining loop
`receive_and_write_packets`, the directory-scan / sort logic of `main`, and
the pipeline driver of `main` over abstract ffmpeg/image collaborators.

## The binary32 (f32) model

Every float value arising in the converter is a dyadic rational of magnitude
below `2^16` with denominator dividing `2^60`, so we represent an f32 value
`v` exactly by the integer `v * 2^60`.  `fround p q` rounds the rational
`p / q` to binary32 with round-to-nearest, ties-to-even — exactly IEEE-754
semantics for every value of magnitude `≥ 2^-37` or `0` (values of smaller
magnitude are rounded at the fixed scale `2^-60`; the converter never
produces a nonzero value of magnitude below `2^-28`, and no value ever
reaches the f32 overflow range).
-/

set_option maxRecDepth 100000

/-! ## Definitions -/

/-- Round `n / q` (for `q > 0`) to the nearest integer, ties to even.
`/` and `%` on `ℤ` are Euclidean, so `n % q ∈ [0, q)`. -/
def rneDiv (n q : ℤ) : ℤ :=
  if 2 * (n % q) < q then n / q
  else if q < 2 * (n % q) then n / q + 1
  else if (n / q) % 2 = 0 then n / q else n / q + 1

/-- Fuel-indexed search for the largest exponent `e ∈ [-59, 15]` with
`2^e ≤ p/q` (for `p, q > 0`); `-60` when there is none.  The candidate
`e = fuel - 1 - 59` is tested first (`q * 2^n ≤ p * 2^59` iff
`2^(n-59) ≤ p/q`). -/
def expSearch (p q : ℤ) : ℕ → ℤ
  | 0 => -60
  | n + 1 => if q * 2 ^ n ≤ p * 2 ^ 59 then (n : ℤ) - 59 else expSearch p q n

/-- The binary32 exponent of the positive rational `p / q`, searched over
`[-59, 15]` (`-60` when `p/q < 2^-59`). -/
def fexp (p q : ℤ) : ℤ := expSearch p q 75

/-- Round the positive rational `p / q` to binary32 (nearest, ties to even),
returned as `value * 2^60`.  For exponent `e` the significand is
`(p/q) * 2^(23-e) ∈ [2^23, 2^24)` and the rounded value is a multiple of
`2^(e-23)`; values with `e ≤ -37` are rounded at the fixed scale `2^-60`
(which coincides with binary32 for `e = -37`). -/
def roundPos (p q : ℤ) : ℤ :=
  if fexp p q ≤ -37 then rneDiv (p * 2 ^ 60) q
  else rneDiv (p * 2 ^ (23 - fexp p q).toNat) q * 2 ^ (fexp p q + 37).toNat

/-- Round the rational `p / q` (`q > 0`) to binary32, as `value * 2^60`. -/
def fround (p q : ℤ) : ℤ :=
  if p < 0 then - roundPos (-p) q else roundPos p q

/-- binary32 multiplication on scaled representations
(exact product `a*b / 2^120`, then one rounding). -/
def fmul (a b : ℤ) : ℤ := fround (a * b) (2 ^ 120)

/-- binary32 addition on scaled representations. -/
def fadd (a b : ℤ) : ℤ := fround (a + b) (2 ^ 60)

/-- binary32 subtraction on scaled representations. -/
def fsub (a b : ℤ) : ℤ := fround (a - b) (2 ^ 60)

/-- The binary32 value denoted by a decimal literal `p / q` of the source
(Rust f32 literals denote the nearest binary32 value). -/
def flit (p q : ℤ) : ℤ := fround p q

/-- The (exactly representable) binary32 value of a small integer. -/
def fofInt (n : ℤ) : ℤ := n * 2 ^ 60

/-- The f32 literal `0.257` of the source. -/
def c257 : ℤ := flit 257 1000

/-- The f32 literal `0.504`. -/
def c504 : ℤ := flit 504 1000

/-- The f32 literal `0.098`. -/
def c098 : ℤ := flit 98 1000

/-- The f32 literal `0.148`. -/
def c148 : ℤ := flit 148 1000

/-- The f32 literal `0.291`. -/
def c291 : ℤ := flit 291 1000

/-- The f32 literal `0.439`. -/
def c439 : ℤ := flit 439 1000

/-- The f32 literal `0.368`. -/
def c368 : ℤ := flit 368 1000

/-- The f32 literal `0.071`. -/
def c071 : ℤ := flit 71 1000

/-- `0.257 * r + 0.504 * g + 0.098 * b + 16.0` evaluated in binary32 exactly
as the source does (left-associated operations), on scaled representations. -/
def yF (r g b : ℤ) : ℤ :=
  fadd (fadd (fadd (fmul c257 (fofInt r)) (fmul c504 (fofInt g)))
      (fmul c098 (fofInt b))) (fofInt 16)

/-- `-0.148 * r - 0.291 * g + 0.439 * b + 128.0` in binary32. -/
def uF (r g b : ℤ) : ℤ :=
  fadd (fadd (fsub (fmul (-c148) (fofInt r)) (fmul c291 (fofInt g)))
      (fmul c439 (fofInt b))) (fofInt 128)

/-- `0.439 * r - 0.368 * g - 0.071 * b + 128.0` in binary32. -/
def vF (r g b : ℤ) : ℤ :=
  fadd (fsub (fsub (fmul c439 (fofInt r)) (fmul c368 (fofInt g)))
      (fmul c071 (fofInt b))) (fofInt 128)

/-- Rust `expr as u8` on an f32 value (scaled representation): truncate
toward zero (`Int.tdiv`), saturating to `[0, 255]` (`Int.toNat` clamps
negative values to `0`). -/
def u8cast (a : ℤ) : ℕ := (min 255 (Int.tdiv a (2 ^ 60))).toNat

/-- The luma byte `(0.257 * r + 0.504 * g + 0.098 * b + 16.0) as u8`
stored by the converter for one RGB pixel. -/
def y_val (r g b : ℕ) : ℕ := u8cast (yF r g b)

/-- The chroma byte `(-0.148 * r - 0.291 * g + 0.439 * b + 128.0) as u8`. -/
def u_val (r g b : ℕ) : ℕ := u8cast (uF r g b)

/-- The chroma byte `(0.439 * r - 0.368 * g - 0.071 * b + 128.0) as u8`. -/
def v_val (r g b : ℕ) : ℕ := u8cast (vF r g b)

/-- Exact truncation of the spec's decimal luma formula
`trunc(0.257*R + 0.504*G + 0.098*B + 16)`, stated over exact (real/rational)
arithmetic as the spec sentence reads: scaled by 1000 this is an integer
computation, and the value is nonnegative so truncation toward zero is
integer division.  (Second definition written from the spec's words, for
comparison against the source's binary32 evaluation.) -/
def lumaSpecTrunc (r g b : ℕ) : ℕ := (257 * r + 504 * g + 98 * b + 16000) / 1000

/-- Exact truncation of the spec's decimal chroma-U formula
`trunc(-0.148*R - 0.291*G + 0.439*B + 128)` (written from the spec's words;
the value is always positive on valid channels, so truncation toward zero is
floor, i.e. integer division of the 1000-scaled integer numerator). -/
def uSpecTrunc (r g b : ℕ) : ℤ :=
  (-148 * (r : ℤ) - 291 * g + 439 * b + 128000) / 1000

/-- Exact truncation of the spec's decimal chroma-V formula
`trunc(0.439*R - 0.368*G - 0.071*B + 128)` (written from the spec's words). -/
def vSpecTrunc (r g b : ℕ) : ℤ :=
  (439 * (r : ℤ) - 368 * g - 71 * b + 128000) / 1000

/-- A byte buffer of the converter (`vec![0u8; len]`): a length together with
its contents as a total function (indices `≥ len` are never written). -/
structure Buf where
  len : ℕ
  val : ℕ → ℕ

/-- Rust `vec[i] = v`: in-bounds update; an out-of-bounds index is a Rust
panic, modeled as `none`. -/
def bufSet (b : Buf) (i v : ℕ) : Option Buf :=
  if i < b.len then some ⟨b.len, fun j => if j = i then v else b.val j⟩ else none

/-- A decoded RGB raster (`image::RgbImage`): dimensions and the pixel map
giving the three 8-bit channel values. -/
structure Rgb where
  width : ℕ
  height : ℕ
  pix : ℕ → ℕ → ℕ × ℕ × ℕ

/-- `img.get_pixel(x, y)` of the image crate: panics (modeled `none`)
outside the raster bounds. -/
def getPixel (img : Rgb) (x y : ℕ) : Option (ℕ × ℕ × ℕ) :=
  if x < img.width ∧ y < img.height then some (img.pix x y) else none

/-- One iteration of the converter's nested loop at `p = (y, x)`: read the
pixel, store the luma byte at `y * y_stride + x`, and when both coordinates
are even store the two chroma bytes at `(y/2) * stride + x/2` of the U and V
buffers (top-left point sampling of each 2×2 block). -/
def convStep (img : Rgb) (ys us vs : ℕ) (st : Buf × Buf × Buf) (p : ℕ × ℕ) :
    Option (Buf × Buf × Buf) :=
  match getPixel img p.2 p.1 with
  | none => none
  | some c =>
    match bufSet st.1 (p.1 * ys + p.2) (y_val c.1 c.2.1 c.2.2) with
    | none => none
    | some yb =>
      if p.1 % 2 = 0 ∧ p.2 % 2 = 0 then
        match bufSet st.2.1 (p.1 / 2 * us + p.2 / 2) (u_val c.1 c.2.1 c.2.2) with
        | none => none
        | some ub =>
          match bufSet st.2.2 (p.1 / 2 * vs + p.2 / 2) (v_val c.1 c.2.1 c.2.2) with
          | none => none
          | some vb => some (yb, ub, vb)
      else some (yb, st.2.1, st.2.2)

/-- The row-major pixel traversal `for y in 0..h { for x in 0..w { … } }`. -/
def pixList (w h : ℕ) : List (ℕ × ℕ) :=
  (List.range h).flatMap (fun y => (List.range w).map (fun x => (y, x)))

/-- The converter: allocate the three zeroed plane buffers at their stated
sizes (`h * y_stride`, `(h/2) * u_stride`, `(h/2) * v_stride`) and run the
nested loops; `none` models a Rust panic (out-of-bounds write or pixel
read).  The final `copy_from_slice` into the ffmpeg frame is byte-for-byte,
so the result is the three buffers. -/
def rgb_to_yuv420p (img : Rgb) (width height ys us vs : ℕ) :
    Option (Buf × Buf × Buf) :=
  (pixList width height).foldlM (convStep img ys us vs)
    (⟨height * ys, fun _ => 0⟩, ⟨height / 2 * us, fun _ => 0⟩,
     ⟨height / 2 * vs, fun _ => 0⟩)

/-- `resize_exact` of the image crate (external collaborator): returns a
raster of exactly the requested dimensions.  The resampled pixel content
(Lanczos3) is external and irrelevant to every claim here, so it is modeled
by the original pixel map. -/
def resize_exact (im : Rgb) (w h : ℕ) : Rgb := ⟨w, h, im.pix⟩

/-- The per-frame raster preparation in `main`'s loop: an image whose
dimensions differ from the target geometry is resized to it before
conversion. -/
def preparedImage (im : Rgb) (w h : ℕ) : Rgb :=
  if im.width ≠ w ∨ im.height ≠ h then resize_exact im w h else im

/-- Red channel of a raster pixel. -/
def pixR (img : Rgb) (x y : ℕ) : ℕ := (img.pix x y).1

/-- Green channel of a raster pixel. -/
def pixG (img : Rgb) (x y : ℕ) : ℕ := (img.pix x y).2.1

/-- Blue channel of a raster pixel. -/
def pixB (img : Rgb) (x y : ℕ) : ℕ := (img.pix x y).2.2

/-- All three buffers have their allocated plane sizes. -/
def planeLens (h ys us vs : ℕ) (st : Buf × Buf × Buf) : Prop :=
  st.1.len = h * ys ∧ st.2.1.len = h / 2 * us ∧ st.2.2.len = h / 2 * vs

/-- `Path::extension()` on a file name: the portion after the last `.`, or
`none` when there is no dot or when the only dot is the leading character of
the name (`".gitignore"` has no extension). -/
def extension (s : String) : Option String :=
  match s.data.reverse.dropWhile (fun c => c ≠ '.') with
  | [] => none
  | [_] => none
  | _ => some ⟨(s.data.reverse.takeWhile (fun c => c ≠ '.')).reverse⟩

/-- The filter of `main`: a directory entry is kept iff its extension equals
`"jpg"` or `"png"` — an exact, case-sensitive byte comparison
(`ext == "jpg" || ext == "png"` on `OsStr`). -/
def isImagePath (s : String) : Bool :=
  match extension s with
  | some e => e == "jpg" || e == "png"
  | none => false

/-- The candidate list of `main`: filter the directory entries by extension,
then `paths.sort()` — a stable sort in the lexicographic `PathBuf` byte
order, which on these names is the codepoint order of `String`. -/
def candidateFrames (entries : List String) : List String :=
  (entries.filter isImagePath).mergeSort (fun a b => decide (a ≤ b))

/-- The `ffmpeg_next::Error` shapes the driver distinguishes:
`Error::Other { errno }`, `Error::Eof`, and every other variant. -/
inductive FFErr : Type where
  | other (errno : ℤ)
  | eof
  | misc (code : ℤ)
  deriving DecidableEq

/-- Observable events of a run: the printed empty-input notice, opening the
output container, configuring the encoder time base, writing the container
header, submitting a frame with its presentation timestamp, the encoder
yielding a packet (`receive_packet` returning `Ok`), writing a packet to the
container, signalling end of stream (`send_eof`), and writing the trailer. -/
inductive Ev (π : Type) : Type where
  | notice
  | openOut
  | setTimeBase (num den : ℤ)
  | header
  | sendFrame (pts : ℤ)
  | emit (p : π)
  | write (p : π)
  | sendEof
  | trailer
  deriving DecidableEq

/-- Result of a (partial) run: success, a propagated error (`?`), a Rust
panic inside the converter, or exhaustion of the drain-loop fuel (a modeling
artifact — the loop is unbounded in the source). -/
inductive RunRes (α : Type) : Type where
  | ok (a : α)
  | err (e : FFErr)
  | panic
  | diverge
  deriving DecidableEq

/-- The external collaborators: opening the container (`format::output`),
opening the configured encoder (`open_as`), `write_header`, `send_frame`,
`receive_packet` (returning the result and the encoder's next state),
`send_eof`, `write_interleaved`, and `write_trailer`. -/
structure DriverOps (σ π : Type) where
  openOut : Except FFErr Unit
  openEnc : Except FFErr σ
  writeHeader : Except FFErr Unit
  send_frame : σ → ℤ → Except FFErr σ
  receive_packet : σ → Except FFErr π × σ
  send_eof : σ → Except FFErr σ
  write_interleaved : π → Except FFErr Unit
  write_trailer : Except FFErr Unit

/-- The drain loop `receive_and_write_packets`: repeatedly request the next
packet and write it immediately; stop with `Ok` on
`Error::Other { errno: EAGAIN }` (11, or ffmpeg's `AVERROR(EAGAIN) = -11` —
"no packet ready right now", not a failure) or on `Error::Eof`; any other
error is returned to the caller.  `fuel` bounds the iteration count (the
source loop is unbounded); running out gives the artificial `diverge`. -/
def receive_and_write_packets {σ π : Type} (X : DriverOps σ π) :
    ℕ → σ → List (Ev π) → RunRes (σ × List (Ev π))
  | 0, _, _ => .diverge
  | fuel + 1, s, tr =>
    match X.receive_packet s with
    | (Except.ok p, s') =>
      match X.write_interleaved p with
      | .ok _ => receive_and_write_packets X fuel s' (tr ++ [.emit p, .write p])
      | .error e => .err e
    | (.error (.other errno), s') =>
      if errno = 11 ∨ errno = -11 then .ok (s', tr) else .err (.other errno)
    | (.error .eof, s') => .ok (s', tr)
    | (.error (.misc c), _) => .err (.misc c)

/-- The per-frame loop of `main`: resize a mismatched raster to the target
geometry, convert it to YUV 4:2:0 (a converter panic aborts), set the
presentation timestamp to the frame's index, submit, then drain.  (A decode
failure aborts the run before any further event; runs reaching `ok` have all
rasters decoded, which is how the input list is presented here.) -/
def processFrames {σ π : Type} (X : DriverOps σ π) (w h ys us vs fuel : ℕ) :
    List (ℕ × Rgb) → σ → List (Ev π) → RunRes (σ × List (Ev π))
  | [], s, tr => .ok (s, tr)
  | (i, im) :: rest, s, tr =>
    match rgb_to_yuv420p (preparedImage im w h) w h ys us vs with
    | none => .panic
    | some _ =>
      match X.send_frame s (i : ℤ) with
      | .error e => .err e
      | .ok s1 =>
        match receive_and_write_packets X fuel s1 (tr ++ [.sendFrame (i : ℤ)]) with
        | .ok (s2, tr2) => processFrames X w h ys us vs fuel rest s2 tr2
        | .err e => .err e
        | .panic => .panic
        | .diverge => .diverge

/-- The driver (`main` after candidate collection): an empty candidate list
prints a notice and succeeds without touching the output; otherwise the
target geometry comes from the first image, the container is opened, the
encoder is configured with time base `1/fps` and opened, the header is
written, every frame is converted/submitted/drained in order, then the
encoder is flushed (`send_eof`), the remainder drained, and the trailer
written.  `ys us vs` are the strides ffmpeg allocates for a
`frame::Video::new(YUV420P, w, h)`. -/
def mainModel {σ π : Type} (X : DriverOps σ π) :
    List Rgb → ℤ → ℕ → ℕ → ℕ → ℕ → RunRes (List (Ev π))
  | [], _, _, _, _, _ => .ok [.notice]
  | img0 :: rest, fps, ys, us, vs, fuel =>
    match X.openOut with
    | .error e => .err e
    | .ok _ =>
      match X.openEnc with
      | .error e => .err e
      | .ok s0 =>
        match X.writeHeader with
        | .error e => .err e
        | .ok _ =>
          match processFrames X img0.width img0.height ys us vs fuel
              (img0 :: rest).enum s0 [.openOut, .setTimeBase 1 fps, .header] with
          | .err e => .err e
          | .panic => .panic
          | .diverge => .diverge
          | .ok (s1, tr1) =>
            match X.send_eof s1 with
            | .error e => .err e
            | .ok s2 =>
              match receive_and_write_packets X fuel s2 (tr1 ++ [.sendEof]) with
              | .err e => .err e
              | .panic => .panic
              | .diverge => .diverge
              | .ok (_, tr2) =>
                match X.write_trailer with
                | .error e => .err e
                | .ok _ => .ok (tr2 ++ [.trailer])

/-- The presentation timestamp carried by a frame-submission event. -/
def evPts {π : Type} : Ev π → Option ℤ
  | .sendFrame i => some i
  | _ => none

/-- The packet carried by a container-write event. -/
def evWrite {π : Type} : Ev π → Option π
  | .write p => some p
  | _ => none

/-- The packet carried by an encoder-emission event. -/
def evEmit {π : Type} : Ev π → Option π
  | .emit p => some p
  | _ => none

/-- A concrete 2×2 black raster, for exercising the driver theorems. -/
def demoImg : Rgb := ⟨2, 2, fun _ _ => (0, 0, 0)⟩

/-- A concrete collaborator instance: the encoder state is a queue of
pending packet ids plus a flushed flag; each submitted frame queues one
packet (its timestamp), `receive_packet` yields pending packets, then
reports EAGAIN while active and end-of-stream once flushed. -/
def Xdemo : DriverOps (List ℕ × Bool) ℕ where
  openOut := .ok ()
  openEnc := .ok ([], false)
  writeHeader := .ok ()
  send_frame := fun s i => .ok (s.1 ++ [i.toNat], s.2)
  receive_packet := fun s =>
    match s.1 with
    | [] => if s.2 then (.error .eof, s) else (.error (.other 11), s)
    | p :: rest => (.ok p, (rest, s.2))
  send_eof := fun s => .ok (s.1, true)
  write_interleaved := fun _ => .ok ()
  write_trailer := .ok ()

/-- The trace of `Xdemo` run on one 2×2 image at 10 fps. -/
def demoTr : List (Ev ℕ) :=
  [Ev.openOut, Ev.setTimeBase 1 10, Ev.header, Ev.sendFrame 0, Ev.emit 0,
   Ev.write 0, Ev.sendEof, Ev.trailer]

/-! ## Theorems -/

theorem rneDiv_ge_ediv (n q : ℤ) : n / q ≤ rneDiv n q := by
  unfold rneDiv; split_ifs <;> omega

theorem rneDiv_le_ediv_succ (n q : ℤ) : rneDiv n q ≤ n / q + 1 := by
  unfold rneDiv; split_ifs <;> omega

theorem rneDiv_nonneg {n q : ℤ} (hn : 0 ≤ n) (hq : 0 < q) : 0 ≤ rneDiv n q := by
  have := rneDiv_ge_ediv n q
  have := Int.ediv_nonneg hn (le_of_lt hq)
  omega

theorem rneDiv_lower {n q : ℤ} (hq : 0 < q) : 2 * n - q ≤ 2 * q * rneDiv n q := by
  have h1 := Int.ediv_add_emod n q
  have h2 := Int.emod_nonneg n (ne_of_gt hq)
  have h3 := Int.emod_lt_of_pos n hq
  unfold rneDiv; split_ifs <;> nlinarith

theorem rneDiv_upper {n q : ℤ} (hq : 0 < q) : 2 * q * rneDiv n q ≤ 2 * n + q := by
  have h1 := Int.ediv_add_emod n q
  have h2 := Int.emod_nonneg n (ne_of_gt hq)
  have h3 := Int.emod_lt_of_pos n hq
  unfold rneDiv; split_ifs <;> nlinarith

theorem rneDiv_mono {n n' q : ℤ} (hq : 0 < q) (h : n ≤ n') :
    rneDiv n q ≤ rneDiv n' q := by
  have hdd : n / q ≤ n' / q := Int.ediv_le_ediv hq h
  rcases lt_or_eq_of_le hdd with hlt | heq
  · have l1 := rneDiv_le_ediv_succ n q
    have l2 := rneDiv_ge_ediv n' q
    omega
  · have hrr : n % q ≤ n' % q := by
      have h1 := Int.ediv_add_emod n q
      have h2 := Int.ediv_add_emod n' q
      have hq' : q * (n / q) = q * (n' / q) := by rw [heq]
      linarith
    unfold rneDiv
    rw [← heq]
    generalize n / q = d at heq ⊢
    generalize n % q = r at hrr ⊢
    generalize n' % q = r' at hrr ⊢
    split_ifs <;> omega

theorem expSearch_ge (p q : ℤ) (fuel : ℕ) : -60 ≤ expSearch p q fuel := by
  induction fuel with
  | zero => simp [expSearch]
  | succ n ih =>
    unfold expSearch
    split
    · omega
    · exact ih

theorem expSearch_le (p q : ℤ) (fuel : ℕ) : expSearch p q fuel ≤ (fuel : ℤ) - 60 := by
  induction fuel with
  | zero => simp [expSearch]
  | succ n ih =>
    unfold expSearch
    split
    · push_cast; omega
    · push_cast; omega

theorem expSearch_sound (p q : ℤ) (fuel : ℕ)
    (h : -59 ≤ expSearch p q fuel) :
    q * 2 ^ (expSearch p q fuel + 59).toNat ≤ p * 2 ^ 59 := by
  induction fuel with
  | zero => simp [expSearch] at h
  | succ n ih =>
    have hdef : expSearch p q (n + 1) =
        if q * 2 ^ n ≤ p * 2 ^ 59 then (n : ℤ) - 59 else expSearch p q n := rfl
    by_cases hc : q * 2 ^ n ≤ p * 2 ^ 59
    · rw [hdef, if_pos hc]
      have ht : ((n : ℤ) - 59 + 59).toNat = n := by omega
      rw [ht]; exact hc
    · rw [hdef, if_neg hc] at h ⊢
      exact ih h

theorem expSearch_upper (p q : ℤ) (fuel : ℕ)
    (h : p * 2 ^ 59 < q * 2 ^ fuel) :
    p * 2 ^ 59 < q * 2 ^ (expSearch p q fuel + 60).toNat := by
  induction fuel with
  | zero => simpa [expSearch] using h
  | succ n ih =>
    unfold expSearch
    split
    · rename_i hc
      have he : ((n : ℤ) - 59 + 60).toNat = n + 1 := by omega
      simpa [he] using h
    · rename_i hc
      exact ih (by omega)

theorem fexp_ge (p q : ℤ) : -60 ≤ fexp p q := expSearch_ge p q 75

theorem fexp_le (p q : ℤ) : fexp p q ≤ 15 := by
  have := expSearch_le p q 75
  unfold fexp; omega

theorem fexp_sound (p q : ℤ) (h : -59 ≤ fexp p q) :
    q * 2 ^ (fexp p q + 59).toNat ≤ p * 2 ^ 59 := expSearch_sound p q 75 h

theorem fexp_upper (p q : ℤ) (h : p * 2 ^ 59 < q * 2 ^ 75) :
    p * 2 ^ 59 < q * 2 ^ (fexp p q + 60).toNat := expSearch_upper p q 75 h

theorem rneDiv_zero {q : ℤ} (hq : 0 < q) : rneDiv 0 q = 0 := by
  unfold rneDiv
  rw [Int.zero_emod, Int.zero_ediv]
  split_ifs <;> omega

theorem roundPos_nonneg {p q : ℤ} (hp : 0 ≤ p) (hq : 0 < q) : 0 ≤ roundPos p q := by
  unfold roundPos
  split_ifs
  · exact rneDiv_nonneg (by positivity) hq
  · exact mul_nonneg (rneDiv_nonneg (by positivity) hq) (by positivity)

theorem roundPos_zero {q : ℤ} (hq : 0 < q) : roundPos 0 q = 0 := by
  unfold roundPos
  split_ifs <;> simp [rneDiv_zero hq]

theorem roundPos_lower {p q : ℤ} (hq : 0 < q) (he : -59 ≤ fexp p q) :
    2 ^ (fexp p q + 60).toNat ≤ roundPos p q := by
  have hS := fexp_sound p q he
  have he15 := fexp_le p q
  unfold roundPos
  split_ifs with hb
  · -- fallback scale: 2^(e+60) ≤ (p * 2^60) / q ≤ rneDiv (p * 2^60) q
    have ht : (fexp p q + 60).toNat = (fexp p q + 59).toNat + 1 := by omega
    have h1 : (2 : ℤ) ^ (fexp p q + 60).toNat * q ≤ p * 2 ^ 60 := by
      calc (2 : ℤ) ^ (fexp p q + 60).toNat * q
          = (q * 2 ^ (fexp p q + 59).toNat) * 2 := by rw [ht, pow_succ]; ring
        _ ≤ (p * 2 ^ 59) * 2 := by linarith
        _ = p * 2 ^ 60 := by ring_nf
    have h2 : (2 : ℤ) ^ (fexp p q + 60).toNat ≤ p * 2 ^ 60 / q :=
      (Int.le_ediv_iff_mul_le hq).mpr h1
    linarith [rneDiv_ge_ediv (p * 2 ^ 60) q]
  · -- normal branch: the significand is at least 2^23
    push_neg at hb
    have hsum : (fexp p q + 59).toNat + (23 - fexp p q).toNat = 82 := by omega
    have hm : (2 : ℤ) ^ 23 ≤ rneDiv (p * 2 ^ (23 - fexp p q).toNat) q := by
      have h2 := mul_le_mul_of_nonneg_right hS
        (show (0 : ℤ) ≤ 2 ^ (23 - fexp p q).toNat by positivity)
      rw [mul_assoc q, ← pow_add, hsum] at h2
      have h3 : ((2 : ℤ) ^ 23 * q) * 2 ^ 59 ≤ (p * 2 ^ (23 - fexp p q).toNat) * 2 ^ 59 := by
        calc ((2 : ℤ) ^ 23 * q) * 2 ^ 59 = q * 2 ^ 82 := by ring_nf
          _ ≤ p * 2 ^ 59 * 2 ^ (23 - fexp p q).toNat := h2
          _ = (p * 2 ^ (23 - fexp p q).toNat) * 2 ^ 59 := by ring
      have h4 : (2 : ℤ) ^ 23 * q ≤ p * 2 ^ (23 - fexp p q).toNat :=
        le_of_mul_le_mul_right h3 (by positivity)
      have h5 := (Int.le_ediv_iff_mul_le hq).mpr h4
      linarith [rneDiv_ge_ediv (p * 2 ^ (23 - fexp p q).toNat) q]
    have ht2 : (fexp p q + 60).toNat = 23 + (fexp p q + 37).toNat := by omega
    calc (2 : ℤ) ^ (fexp p q + 60).toNat
        = 2 ^ 23 * 2 ^ (fexp p q + 37).toNat := by rw [ht2, pow_add]
      _ ≤ rneDiv (p * 2 ^ (23 - fexp p q).toNat) q * 2 ^ (fexp p q + 37).toNat :=
        mul_le_mul_of_nonneg_right hm (by positivity)

theorem ediv_lt_of_lt_mul {n q c : ℤ} (hq : 0 < q) (h : n < c * q) : n / q < c := by
  by_contra hcon
  push_neg at hcon
  have := (Int.le_ediv_iff_mul_le hq).mp hcon
  linarith

theorem roundPos_upper {p q : ℤ} (hq : 0 < q) (hb : p * 2 ^ 59 < q * 2 ^ 75) :
    roundPos p q ≤ 2 ^ (fexp p q + 61).toNat := by
  have hU := fexp_upper p q hb
  have he60 := fexp_ge p q
  have he15 := fexp_le p q
  unfold roundPos
  split_ifs with hcase
  · have ht : (fexp p q + 61).toNat = (fexp p q + 60).toNat + 1 := by omega
    have h1 : p * 2 ^ 60 < 2 ^ (fexp p q + 61).toNat * q := by
      calc p * 2 ^ 60 = (p * 2 ^ 59) * 2 := by ring_nf
        _ < (q * 2 ^ (fexp p q + 60).toNat) * 2 := by linarith
        _ = 2 ^ (fexp p q + 61).toNat * q := by rw [ht, pow_succ]; ring
    have h2 := ediv_lt_of_lt_mul hq h1
    linarith [rneDiv_le_ediv_succ (p * 2 ^ 60) q]
  · push_neg at hcase
    have hsum : (fexp p q + 60).toNat + (23 - fexp p q).toNat = 83 := by omega
    have hN : p * 2 ^ (23 - fexp p q).toNat < q * 2 ^ 24 := by
      have h2 := mul_lt_mul_of_pos_right hU
        (show (0 : ℤ) < 2 ^ (23 - fexp p q).toNat by positivity)
      rw [mul_assoc q, ← pow_add, hsum] at h2
      have h3 : (p * 2 ^ (23 - fexp p q).toNat) * 2 ^ 59 < (q * 2 ^ 24) * 2 ^ 59 := by
        calc (p * 2 ^ (23 - fexp p q).toNat) * 2 ^ 59
            = p * 2 ^ 59 * 2 ^ (23 - fexp p q).toNat := by ring
          _ < q * 2 ^ 83 := h2
          _ = (q * 2 ^ 24) * 2 ^ 59 := by ring_nf
      exact lt_of_mul_lt_mul_right h3 (by positivity)
    have hm : rneDiv (p * 2 ^ (23 - fexp p q).toNat) q ≤ 2 ^ 24 := by
      have h2 := ediv_lt_of_lt_mul hq (by linarith [hN] : p * 2 ^ (23 - fexp p q).toNat < 2 ^ 24 * q)
      linarith [rneDiv_le_ediv_succ (p * 2 ^ (23 - fexp p q).toNat) q]
    have ht2 : (fexp p q + 61).toNat = 24 + (fexp p q + 37).toNat := by omega
    calc rneDiv (p * 2 ^ (23 - fexp p q).toNat) q * 2 ^ (fexp p q + 37).toNat
        ≤ 2 ^ 24 * 2 ^ (fexp p q + 37).toNat := mul_le_mul_of_nonneg_right hm (by positivity)
      _ = 2 ^ (fexp p q + 61).toNat := by rw [ht2, pow_add]

theorem roundPos_mono {p p' q : ℤ} (hq : 0 < q) (hpp' : p ≤ p')
    (hb' : p' * 2 ^ 59 < q * 2 ^ 75) : roundPos p q ≤ roundPos p' q := by
  have hb : p * 2 ^ 59 < q * 2 ^ 75 := by nlinarith
  have hee : fexp p q ≤ fexp p' q := by
    rcases le_or_lt (-59) (fexp p q) with h59 | h59
    · have hS := fexp_sound p q h59
      have hU := fexp_upper p' q hb'
      have h1 : q * 2 ^ (fexp p q + 59).toNat < q * 2 ^ (fexp p' q + 60).toNat := by
        calc q * 2 ^ (fexp p q + 59).toNat ≤ p * 2 ^ 59 := hS
          _ ≤ p' * 2 ^ 59 := by nlinarith
          _ < q * 2 ^ (fexp p' q + 60).toNat := hU
      have h2 : (2 : ℤ) ^ (fexp p q + 59).toNat < 2 ^ (fexp p' q + 60).toNat :=
        lt_of_mul_lt_mul_left h1 (le_of_lt hq)
      have h3 : (fexp p q + 59).toNat < (fexp p' q + 60).toNat :=
        (pow_lt_pow_iff_right₀ (show (1 : ℤ) < 2 by norm_num)).mp h2
      have := fexp_ge p' q
      omega
    · have := fexp_ge p' q
      omega
  by_cases hc1 : fexp p q ≤ -37
  · by_cases hc2 : fexp p' q ≤ -37
    · -- both at the fixed fallback scale
      unfold roundPos
      rw [if_pos hc1, if_pos hc2]
      exact rneDiv_mono hq (by nlinarith)
    · -- p at fallback scale, p' at a strictly greater exponent
      push_neg at hc2
      have h1 : roundPos p q ≤ 2 ^ (fexp p q + 61).toNat := roundPos_upper hq hb
      have h2 : (2 : ℤ) ^ (fexp p' q + 60).toNat ≤ roundPos p' q :=
        roundPos_lower hq (by omega)
      have he60 := fexp_ge p q
      have h3 : (2 : ℤ) ^ (fexp p q + 61).toNat ≤ 2 ^ (fexp p' q + 60).toNat :=
        pow_le_pow_right₀ (by norm_num) (by omega)
      linarith
  · have hc2 : ¬ fexp p' q ≤ -37 := by omega
    rcases eq_or_lt_of_le hee with heq | hlt
    · -- same exponent: compare significands at the same scale
      unfold roundPos
      rw [if_neg hc1, if_neg hc2, ← heq]
      exact mul_le_mul_of_nonneg_right
        (rneDiv_mono hq (by nlinarith [pow_pos (show (0:ℤ) < 2 by norm_num) (23 - fexp p q).toNat]))
        (by positivity)
    · have h1 : roundPos p q ≤ 2 ^ (fexp p q + 61).toNat := roundPos_upper hq hb
      have h2 : (2 : ℤ) ^ (fexp p' q + 60).toNat ≤ roundPos p' q :=
        roundPos_lower hq (by omega)
      have h3 : (2 : ℤ) ^ (fexp p q + 61).toNat ≤ 2 ^ (fexp p' q + 60).toNat := by
        push_neg at hc1
        exact pow_le_pow_right₀ (by norm_num) (by omega)
      linarith

theorem fround_nonneg {p q : ℤ} (hp : 0 ≤ p) (hq : 0 < q) : 0 ≤ fround p q := by
  unfold fround
  rw [if_neg (by omega)]
  exact roundPos_nonneg hp hq

theorem fround_nonpos {p q : ℤ} (hp : p ≤ 0) (hq : 0 < q) : fround p q ≤ 0 := by
  unfold fround
  split_ifs with hneg
  · have := roundPos_nonneg (show (0:ℤ) ≤ -p by omega) hq
    omega
  · have hp0 : p = 0 := by omega
    rw [hp0, roundPos_zero hq]

theorem fround_mono {a b q : ℤ} (hq : 0 < q) (hab : a ≤ b)
    (hA : -(q * 2 ^ 75) < a * 2 ^ 59) (hB : b * 2 ^ 59 < q * 2 ^ 75) :
    fround a q ≤ fround b q := by
  unfold fround
  split_ifs with ha hb2 hb2
  · -- both negative
    have h1 : roundPos (-b) q ≤ roundPos (-a) q := by
      apply roundPos_mono hq (by omega)
      nlinarith
    omega
  · -- a negative, b nonnegative
    have h1 : 0 ≤ roundPos (-a) q := roundPos_nonneg (by omega) hq
    have h2 : 0 ≤ roundPos b q := roundPos_nonneg (by omega) hq
    omega
  · omega
  · exact roundPos_mono hq hab (by nlinarith)

theorem fadd_mono {a b a' b' : ℤ} (h1 : a ≤ a') (h2 : b ≤ b')
    (hlo : -(2 ^ 76) < a + b) (hhi : a' + b' < 2 ^ 76) : fadd a b ≤ fadd a' b' := by
  unfold fadd
  apply fround_mono (by positivity) (by omega) <;> nlinarith

theorem fsub_mono {a b a' b' : ℤ} (h1 : a ≤ a') (h2 : b' ≤ b)
    (hlo : -(2 ^ 76) < a - b) (hhi : a' - b' < 2 ^ 76) : fsub a b ≤ fsub a' b' := by
  unfold fsub
  apply fround_mono (by positivity) (by omega) <;> nlinarith

theorem fmul_mono {c x x' : ℤ} (hc : 0 ≤ c) (hx : 0 ≤ x) (h : x ≤ x')
    (hhi : c * x' < 2 ^ 136) : fmul c x ≤ fmul c x' := by
  unfold fmul
  apply fround_mono (by positivity) (by nlinarith)
  · nlinarith
  · nlinarith

theorem fmul_anti {c x x' : ℤ} (hc : c ≤ 0) (hx : 0 ≤ x) (h : x ≤ x')
    (hlo : -(2 ^ 136) < c * x') : fmul c x' ≤ fmul c x := by
  unfold fmul
  apply fround_mono (by positivity) (by nlinarith)
  · nlinarith
  · nlinarith

theorem fmul_nonneg {c x : ℤ} (hc : 0 ≤ c) (hx : 0 ≤ x) : 0 ≤ fmul c x :=
  fround_nonneg (by positivity) (by positivity)

theorem fmul_nonpos {c x : ℤ} (hc : c ≤ 0) (hx : 0 ≤ x) : fmul c x ≤ 0 :=
  fround_nonpos (mul_nonpos_iff.mpr (Or.inr ⟨hc, hx⟩)) (by positivity)

theorem fadd_nn {a b : ℤ} (ha : 0 ≤ a) (hb : 0 ≤ b) : 0 ≤ fadd a b :=
  fround_nonneg (by omega) (by positivity)

theorem fofInt_nonneg {x : ℤ} (h : 0 ≤ x) : 0 ≤ fofInt x := by
  unfold fofInt; positivity

theorem fofInt_mono {x y : ℤ} (h : x ≤ y) : fofInt x ≤ fofInt y :=
  mul_le_mul_of_nonneg_right h (by positivity)

theorem prodUB {c x : ℤ} (hc : c ≤ 2 ^ 60) (hx0 : 0 ≤ x) (hx : x ≤ 255) :
    c * fofInt x < 2 ^ 136 := by
  unfold fofInt
  nlinarith [mul_nonneg hx0 (show (0:ℤ) ≤ 2 ^ 60 by positivity)]

theorem prodLB {c x : ℤ} (hc : -(2 ^ 60) ≤ c) (hx0 : 0 ≤ x) (hx : x ≤ 255) :
    -(2 ^ 136) < c * fofInt x := by
  unfold fofInt
  nlinarith [mul_nonneg hx0 (show (0:ℤ) ≤ 2 ^ 60 by positivity)]

/-- The binary32 luma expression is monotone in each channel, so it is
bracketed by its values at the all-zero and all-255 corners. -/
theorem yF_bounds {r g b : ℤ} (hr0 : 0 ≤ r) (hr : r ≤ 255) (hg0 : 0 ≤ g) (hg : g ≤ 255)
    (hb0 : 0 ≤ b) (hb : b ≤ 255) :
    yF 0 0 0 ≤ yF r g b ∧ yF r g b ≤ yF 255 255 255 := by
  have c2570 : (0:ℤ) ≤ c257 := by decide
  have c257u : c257 ≤ 2 ^ 60 := by decide
  have c5040 : (0:ℤ) ≤ c504 := by decide
  have c504u : c504 ≤ 2 ^ 60 := by decide
  have c0980 : (0:ℤ) ≤ c098 := by decide
  have c098u : c098 ≤ 2 ^ 60 := by decide
  have hf0 : (0:ℤ) ≤ fofInt 0 := fofInt_nonneg le_rfl
  have m1l : fmul c257 (fofInt 0) ≤ fmul c257 (fofInt r) :=
    fmul_mono c2570 hf0 (fofInt_mono hr0) (prodUB c257u hr0 hr)
  have m1u : fmul c257 (fofInt r) ≤ fmul c257 (fofInt 255) :=
    fmul_mono c2570 (fofInt_nonneg hr0) (fofInt_mono hr) (prodUB c257u (by norm_num) le_rfl)
  have m10 : (0:ℤ) ≤ fmul c257 (fofInt r) := fmul_nonneg c2570 (fofInt_nonneg hr0)
  have m2l : fmul c504 (fofInt 0) ≤ fmul c504 (fofInt g) :=
    fmul_mono c5040 hf0 (fofInt_mono hg0) (prodUB c504u hg0 hg)
  have m2u : fmul c504 (fofInt g) ≤ fmul c504 (fofInt 255) :=
    fmul_mono c5040 (fofInt_nonneg hg0) (fofInt_mono hg) (prodUB c504u (by norm_num) le_rfl)
  have m20 : (0:ℤ) ≤ fmul c504 (fofInt g) := fmul_nonneg c5040 (fofInt_nonneg hg0)
  have m3l : fmul c098 (fofInt 0) ≤ fmul c098 (fofInt b) :=
    fmul_mono c0980 hf0 (fofInt_mono hb0) (prodUB c098u hb0 hb)
  have m3u : fmul c098 (fofInt b) ≤ fmul c098 (fofInt 255) :=
    fmul_mono c0980 (fofInt_nonneg hb0) (fofInt_mono hb) (prodUB c098u (by norm_num) le_rfl)
  have m30 : (0:ℤ) ≤ fmul c098 (fofInt b) := fmul_nonneg c0980 (fofInt_nonneg hb0)
  have K1 : fmul c257 (fofInt 255) + fmul c504 (fofInt 255) < 2 ^ 76 := by decide
  have K2 : -(2 ^ 76) < fmul c257 (fofInt 0) + fmul c504 (fofInt 0) := by decide
  have s1l := fadd_mono m1l m2l K2 (by linarith)
  have s1u := fadd_mono m1u m2u (by linarith) K1
  have s10 : (0:ℤ) ≤ fadd (fmul c257 (fofInt r)) (fmul c504 (fofInt g)) := fadd_nn m10 m20
  have K3 : fadd (fmul c257 (fofInt 255)) (fmul c504 (fofInt 255)) + fmul c098 (fofInt 255)
      < 2 ^ 76 := by decide
  have K4 : -(2 ^ 76) < fadd (fmul c257 (fofInt 0)) (fmul c504 (fofInt 0)) + fmul c098 (fofInt 0) := by
    decide
  have s2l := fadd_mono s1l m3l K4 (by linarith)
  have s2u := fadd_mono s1u m3u (by linarith) K3
  have s20 : (0:ℤ) ≤ fadd (fadd (fmul c257 (fofInt r)) (fmul c504 (fofInt g)))
      (fmul c098 (fofInt b)) := fadd_nn s10 m30
  have K5 : fadd (fadd (fmul c257 (fofInt 255)) (fmul c504 (fofInt 255))) (fmul c098 (fofInt 255))
      + fofInt 16 < 2 ^ 76 := by decide
  have K6 : -(2 ^ 76) < fadd (fadd (fmul c257 (fofInt 0)) (fmul c504 (fofInt 0)))
      (fmul c098 (fofInt 0)) + fofInt 16 := by decide
  have h16 : (0:ℤ) ≤ fofInt 16 := by decide
  have yl := fadd_mono s2l (le_refl (fofInt 16)) K6 (by linarith)
  have yu := fadd_mono s2u (le_refl (fofInt 16)) (by linarith) K5
  exact ⟨yl, yu⟩

/-- The binary32 chroma-U expression decreases in `r` and `g` and increases
in `b`, so it is bracketed by its values at `(255,255,0)` and `(0,0,255)`. -/
theorem uF_bounds {r g b : ℤ} (hr0 : 0 ≤ r) (hr : r ≤ 255) (hg0 : 0 ≤ g) (hg : g ≤ 255)
    (hb0 : 0 ≤ b) (hb : b ≤ 255) :
    uF 255 255 0 ≤ uF r g b ∧ uF r g b ≤ uF 0 0 255 := by
  have cn0 : -c148 ≤ (0:ℤ) := by decide
  have cnl : -(2 ^ 60) ≤ -c148 := by decide
  have c2910 : (0:ℤ) ≤ c291 := by decide
  have c291u : c291 ≤ 2 ^ 60 := by decide
  have c4390 : (0:ℤ) ≤ c439 := by decide
  have c439u : c439 ≤ 2 ^ 60 := by decide
  have hf0 : (0:ℤ) ≤ fofInt 0 := fofInt_nonneg le_rfl
  have t1u : fmul (-c148) (fofInt r) ≤ fmul (-c148) (fofInt 0) :=
    fmul_anti cn0 hf0 (fofInt_mono hr0) (prodLB cnl hr0 hr)
  have t1l : fmul (-c148) (fofInt 255) ≤ fmul (-c148) (fofInt r) :=
    fmul_anti cn0 (fofInt_nonneg hr0) (fofInt_mono hr) (prodLB cnl (by norm_num) le_rfl)
  have t1np : fmul (-c148) (fofInt r) ≤ 0 := fmul_nonpos cn0 (fofInt_nonneg hr0)
  have m2l : fmul c291 (fofInt 0) ≤ fmul c291 (fofInt g) :=
    fmul_mono c2910 hf0 (fofInt_mono hg0) (prodUB c291u hg0 hg)
  have m2u : fmul c291 (fofInt g) ≤ fmul c291 (fofInt 255) :=
    fmul_mono c2910 (fofInt_nonneg hg0) (fofInt_mono hg) (prodUB c291u (by norm_num) le_rfl)
  have m20 : (0:ℤ) ≤ fmul c291 (fofInt g) := fmul_nonneg c2910 (fofInt_nonneg hg0)
  have m3l : fmul c439 (fofInt 0) ≤ fmul c439 (fofInt b) :=
    fmul_mono c4390 hf0 (fofInt_mono hb0) (prodUB c439u hb0 hb)
  have m3u : fmul c439 (fofInt b) ≤ fmul c439 (fofInt 255) :=
    fmul_mono c4390 (fofInt_nonneg hb0) (fofInt_mono hb) (prodUB c439u (by norm_num) le_rfl)
  have m30 : (0:ℤ) ≤ fmul c439 (fofInt b) := fmul_nonneg c4390 (fofInt_nonneg hb0)
  have K1 : -(2 ^ 76) < fmul (-c148) (fofInt 255) - fmul c291 (fofInt 255) := by decide
  have K2 : fmul (-c148) (fofInt 0) - fmul c291 (fofInt 0) < 2 ^ 76 := by decide
  have t2l := fsub_mono t1l m2u K1 (by linarith)
  have t2u := fsub_mono t1u m2l (by linarith) K2
  have K3 : -(2 ^ 76) < fsub (fmul (-c148) (fofInt 255)) (fmul c291 (fofInt 255))
      + fmul c439 (fofInt 0) := by decide
  have K4 : fsub (fmul (-c148) (fofInt 0)) (fmul c291 (fofInt 0)) + fmul c439 (fofInt 255)
      < 2 ^ 76 := by decide
  have t3l := fadd_mono t2l m3l K3 (by linarith)
  have t3u := fadd_mono t2u m3u (by linarith) K4
  have K5 : -(2 ^ 76) < fadd (fsub (fmul (-c148) (fofInt 255)) (fmul c291 (fofInt 255)))
      (fmul c439 (fofInt 0)) + fofInt 128 := by decide
  have K6 : fadd (fsub (fmul (-c148) (fofInt 0)) (fmul c291 (fofInt 0)))
      (fmul c439 (fofInt 255)) + fofInt 128 < 2 ^ 76 := by decide
  have h128 : (0:ℤ) ≤ fofInt 128 := by decide
  have ul := fadd_mono t3l (le_refl (fofInt 128)) K5 (by linarith)
  have uu := fadd_mono t3u (le_refl (fofInt 128)) (by linarith) K6
  exact ⟨ul, uu⟩

/-- The binary32 chroma-V expression increases in `r` and decreases in `g`
and `b`, so it is bracketed by its values at `(0,255,255)` and `(255,0,0)`. -/
theorem vF_bounds {r g b : ℤ} (hr0 : 0 ≤ r) (hr : r ≤ 255) (hg0 : 0 ≤ g) (hg : g ≤ 255)
    (hb0 : 0 ≤ b) (hb : b ≤ 255) :
    vF 0 255 255 ≤ vF r g b ∧ vF r g b ≤ vF 255 0 0 := by
  have c4390 : (0:ℤ) ≤ c439 := by decide
  have c439u : c439 ≤ 2 ^ 60 := by decide
  have c3680 : (0:ℤ) ≤ c368 := by decide
  have c368u : c368 ≤ 2 ^ 60 := by decide
  have c0710 : (0:ℤ) ≤ c071 := by decide
  have c071u : c071 ≤ 2 ^ 60 := by decide
  have hf0 : (0:ℤ) ≤ fofInt 0 := fofInt_nonneg le_rfl
  have t1l : fmul c439 (fofInt 0) ≤ fmul c439 (fofInt r) :=
    fmul_mono c4390 hf0 (fofInt_mono hr0) (prodUB c439u hr0 hr)
  have t1u : fmul c439 (fofInt r) ≤ fmul c439 (fofInt 255) :=
    fmul_mono c4390 (fofInt_nonneg hr0) (fofInt_mono hr) (prodUB c439u (by norm_num) le_rfl)
  have t10 : (0:ℤ) ≤ fmul c439 (fofInt r) := fmul_nonneg c4390 (fofInt_nonneg hr0)
  have m2l : fmul c368 (fofInt 0) ≤ fmul c368 (fofInt g) :=
    fmul_mono c3680 hf0 (fofInt_mono hg0) (prodUB c368u hg0 hg)
  have m2u : fmul c368 (fofInt g) ≤ fmul c368 (fofInt 255) :=
    fmul_mono c3680 (fofInt_nonneg hg0) (fofInt_mono hg) (prodUB c368u (by norm_num) le_rfl)
  have m20 : (0:ℤ) ≤ fmul c368 (fofInt g) := fmul_nonneg c3680 (fofInt_nonneg hg0)
  have m3l : fmul c071 (fofInt 0) ≤ fmul c071 (fofInt b) :=
    fmul_mono c0710 hf0 (fofInt_mono hb0) (prodUB c071u hb0 hb)
  have m3u : fmul c071 (fofInt b) ≤ fmul c071 (fofInt 255) :=
    fmul_mono c0710 (fofInt_nonneg hb0) (fofInt_mono hb) (prodUB c071u (by norm_num) le_rfl)
  have m30 : (0:ℤ) ≤ fmul c071 (fofInt b) := fmul_nonneg c0710 (fofInt_nonneg hb0)
  have K1 : -(2 ^ 76) < fmul c439 (fofInt 0) - fmul c368 (fofInt 255) := by decide
  have K2 : fmul c439 (fofInt 255) - fmul c368 (fofInt 0) < 2 ^ 76 := by decide
  have t2l := fsub_mono t1l m2u K1 (by linarith)
  have t2u := fsub_mono t1u m2l (by linarith) K2
  have K3 : -(2 ^ 76) < fsub (fmul c439 (fofInt 0)) (fmul c368 (fofInt 255))
      - fmul c071 (fofInt 255) := by decide
  have K4 : fsub (fmul c439 (fofInt 255)) (fmul c368 (fofInt 0)) - fmul c071 (fofInt 0)
      < 2 ^ 76 := by decide
  have t3l := fsub_mono t2l m3u K3 (by linarith)
  have t3u := fsub_mono t2u m3l (by linarith) K4
  have K5 : -(2 ^ 76) < fsub (fsub (fmul c439 (fofInt 0)) (fmul c368 (fofInt 255)))
      (fmul c071 (fofInt 255)) + fofInt 128 := by decide
  have K6 : fsub (fsub (fmul c439 (fofInt 255)) (fmul c368 (fofInt 0)))
      (fmul c071 (fofInt 0)) + fofInt 128 < 2 ^ 76 := by decide
  have h128 : (0:ℤ) ≤ fofInt 128 := by decide
  have vl := fadd_mono t3l (le_refl (fofInt 128)) K5 (by linarith)
  have vu := fadd_mono t3u (le_refl (fofInt 128)) (by linarith) K6
  exact ⟨vl, vu⟩

theorem yF_corner_lo : 16 * 2 ^ 60 ≤ yF 0 0 0 := by decide

theorem yF_corner_hi : yF 255 255 255 < 236 * 2 ^ 60 := by decide

theorem uF_corner_lo : 16 * 2 ^ 60 < uF 255 255 0 := by decide

theorem uF_corner_hi : uF 0 0 255 < 240 * 2 ^ 60 := by decide

theorem vF_corner_lo : 16 * 2 ^ 60 < vF 0 255 255 := by decide

theorem vF_corner_hi : vF 255 0 0 < 240 * 2 ^ 60 := by decide

/-- For a value in `[lo, hi) * 2^60` with `0 ≤ lo` and `hi ≤ 256`, the `as u8`
cast is the plain truncation `a / 2^60` (no saturation at either end) and its
result lies in `[lo, hi)`. -/
theorem u8cast_spec {a lo hi : ℤ} (h0 : 0 ≤ lo) (hlo : lo * 2 ^ 60 ≤ a)
    (hhi : a < hi * 2 ^ 60) (hhi256 : hi ≤ 256) :
    (u8cast a : ℤ) = a / 2 ^ 60 ∧ lo ≤ (u8cast a : ℤ) ∧ (u8cast a : ℤ) < hi := by
  have ha0 : 0 ≤ a := le_trans (by positivity) hlo
  have hdlo : lo ≤ a / 2 ^ 60 := (Int.le_ediv_iff_mul_le (by positivity)).mpr hlo
  have hdhi : a / 2 ^ 60 < hi := ediv_lt_of_lt_mul (by positivity) (by linarith)
  unfold u8cast
  rw [Int.tdiv_eq_ediv ha0 (by positivity), min_eq_right (by omega),
    Int.toNat_of_nonneg (by omega)]
  exact ⟨rfl, hdlo, hdhi⟩

/-- C4 (counterexample): at RGB `(26, 70, 31)` the exact formula value is
`0.257*26 + 0.504*70 + 0.098*31 + 16 = 61` exactly, so its truncation is 61,
but the source's binary32 evaluation yields `60.999996...`, which the `as u8`
cast truncates to 60.  So the stored luma is not the truncation of the
formula read in exact arithmetic. -/
theorem c4_luma_exact_trunc_fails :
    y_val 26 70 31 = 60 ∧ lumaSpecTrunc 26 70 31 = 61 ∧
      y_val 26 70 31 ≠ lumaSpecTrunc 26 70 31 := by decide

/-- C4 (amended): for every valid 8-bit RGB triple the stored luma byte is
the truncation toward zero of the binary32 evaluation of
`0.257*R + 0.504*G + 0.098*B + 16.0` exactly as the source computes it
(`yF` is that value scaled by `2^60`; the cast applies no saturation at
either end), the result is a pure function of the triple, and it lies in
`[16, 235] ⊆ [0, 255]` — no wraparound. -/
theorem c4_luma_truncation (r g b : ℕ) (hr : r ≤ 255) (hg : g ≤ 255) (hb : b ≤ 255) :
    (y_val r g b : ℤ) = (yF r g b).tdiv (2 ^ 60) ∧
      16 ≤ y_val r g b ∧ y_val r g b ≤ 235 := by
  have hy := yF_bounds (r := r) (g := g) (b := b) (by positivity) (by exact_mod_cast hr)
    (by positivity) (by exact_mod_cast hg) (by positivity) (by exact_mod_cast hb)
  have hlo : 16 * 2 ^ 60 ≤ yF r g b := le_trans yF_corner_lo hy.1
  have hhi : yF r g b < 236 * 2 ^ 60 := lt_of_le_of_lt hy.2 yF_corner_hi
  have hs := u8cast_spec (by norm_num) hlo hhi (by norm_num)
  have ha0 : (0 : ℤ) ≤ yF r g b := le_trans (by positivity) hlo
  refine ⟨?_, ?_, ?_⟩
  · rw [Int.tdiv_eq_ediv ha0 (by positivity)]
    exact hs.1
  · have := hs.2.1
    unfold y_val at this ⊢
    omega
  · have := hs.2.2
    unfold y_val at this ⊢
    omega

/-- C4 (witness): the amended luma theorem instantiated at RGB (128, 64, 200). -/
theorem c4_luma_truncation_witness :
    128 ≤ 255 ∧ ((y_val 128 64 200 : ℤ) = (yF 128 64 200).tdiv (2 ^ 60) ∧
      16 ≤ y_val 128 64 200 ∧ y_val 128 64 200 ≤ 235) :=
  ⟨by norm_num, c4_luma_truncation 128 64 200 (by norm_num) (by norm_num) (by norm_num)⟩

/-- C10: for every valid 8-bit RGB triple the pre-cast binary32 values (here
scaled by `2^60`) satisfy `Y ∈ [16, 236)`, `U, V ∈ [16, 240)`, so the `as u8`
cast never saturates at either bound, and the stored bytes satisfy
`Y ∈ [16, 235]`, `U, V ∈ [16, 239]`. -/
theorem c10_value_ranges (r g b : ℕ) (hr : r ≤ 255) (hg : g ≤ 255) (hb : b ≤ 255) :
    (16 * 2 ^ 60 ≤ yF r g b ∧ yF r g b < 236 * 2 ^ 60) ∧
    (16 * 2 ^ 60 ≤ uF r g b ∧ uF r g b < 240 * 2 ^ 60) ∧
    (16 * 2 ^ 60 ≤ vF r g b ∧ vF r g b < 240 * 2 ^ 60) ∧
    (16 ≤ y_val r g b ∧ y_val r g b ≤ 235) ∧
    (16 ≤ u_val r g b ∧ u_val r g b ≤ 239) ∧
    (16 ≤ v_val r g b ∧ v_val r g b ≤ 239) := by
  have hr' : (r : ℤ) ≤ 255 := by exact_mod_cast hr
  have hg' : (g : ℤ) ≤ 255 := by exact_mod_cast hg
  have hb' : (b : ℤ) ≤ 255 := by exact_mod_cast hb
  have hy := yF_bounds (r := r) (g := g) (b := b) (by positivity) hr' (by positivity) hg'
    (by positivity) hb'
  have hu := uF_bounds (r := r) (g := g) (b := b) (by positivity) hr' (by positivity) hg'
    (by positivity) hb'
  have hv := vF_bounds (r := r) (g := g) (b := b) (by positivity) hr' (by positivity) hg'
    (by positivity) hb'
  have hylo : 16 * 2 ^ 60 ≤ yF r g b := le_trans yF_corner_lo hy.1
  have hyhi : yF r g b < 236 * 2 ^ 60 := lt_of_le_of_lt hy.2 yF_corner_hi
  have hulo : 16 * 2 ^ 60 ≤ uF r g b := le_trans (le_of_lt uF_corner_lo) hu.1
  have huhi : uF r g b < 240 * 2 ^ 60 := lt_of_le_of_lt hu.2 uF_corner_hi
  have hvlo : 16 * 2 ^ 60 ≤ vF r g b := le_trans (le_of_lt vF_corner_lo) hv.1
  have hvhi : vF r g b < 240 * 2 ^ 60 := lt_of_le_of_lt hv.2 vF_corner_hi
  have hys := u8cast_spec (by norm_num) hylo hyhi (by norm_num)
  have hus := u8cast_spec (by norm_num) hulo huhi (by norm_num)
  have hvs := u8cast_spec (by norm_num) hvlo hvhi (by norm_num)
  refine ⟨⟨hylo, hyhi⟩, ⟨hulo, huhi⟩, ⟨hvlo, hvhi⟩, ⟨?_, ?_⟩, ⟨?_, ?_⟩, ⟨?_, ?_⟩⟩
  · have := hys.2.1; unfold y_val; omega
  · have := hys.2.2; unfold y_val; omega
  · have := hus.2.1; unfold u_val; omega
  · have := hus.2.2; unfold u_val; omega
  · have := hvs.2.1; unfold v_val; omega
  · have := hvs.2.2; unfold v_val; omega

/-- C10 (witness): the range theorem instantiated at RGB (19, 44, 222). -/
theorem c10_value_ranges_witness :
    19 ≤ 255 ∧ ((16 * 2 ^ 60 ≤ yF 19 44 222 ∧ yF 19 44 222 < 236 * 2 ^ 60) ∧
    (16 * 2 ^ 60 ≤ uF 19 44 222 ∧ uF 19 44 222 < 240 * 2 ^ 60) ∧
    (16 * 2 ^ 60 ≤ vF 19 44 222 ∧ vF 19 44 222 < 240 * 2 ^ 60) ∧
    (16 ≤ y_val 19 44 222 ∧ y_val 19 44 222 ≤ 235) ∧
    (16 ≤ u_val 19 44 222 ∧ u_val 19 44 222 ≤ 239) ∧
    (16 ≤ v_val 19 44 222 ∧ v_val 19 44 222 ≤ 239)) :=
  ⟨by norm_num, c10_value_ranges 19 44 222 (by norm_num) (by norm_num) (by norm_num)⟩

/-- C1: on a 2×3 raster (odd height) the converter panics: the chroma
buffers have `3/2 = 1` rows, but row `y = 2` is even, so the loop computes a
chroma write at row `2/2 = 1`, index `1 * u_stride`, one past the end of the
`(h/2) * u_stride`-byte buffer — an out-of-bounds write, contradicting the
claim that conversion succeeds with the last odd row excluded from chroma
sampling. -/
theorem c1_odd_height_panics :
    rgb_to_yuv420p ⟨2, 3, fun _ _ => (0, 0, 0)⟩ 2 3 2 1 1 = none := by rfl

/-- C2 (counterexample): the converter contains no dimension check at all —
converting a 4×4 raster against a declared 2×2 target geometry does not fail
with any `DimensionMismatch`; it silently produces output (from the top-left
2×2 region). -/
theorem c2_mismatched_raster_accepted :
    (rgb_to_yuv420p ⟨4, 4, fun _ _ => (0, 0, 0)⟩ 2 2 2 1 1).isSome = true := by rfl

/-- C2 (amended): the converter performs no dimension check; instead the
driver resizes every mismatched raster before conversion, so the raster
handed to `rgb_to_yuv420p` always has exactly the target geometry. -/
theorem c2_driver_resizes (im : Rgb) (w h : ℕ) :
    (preparedImage im w h).width = w ∧ (preparedImage im w h).height = h := by
  unfold preparedImage resize_exact
  split_ifs with hc
  · exact ⟨rfl, rfl⟩
  · push_neg at hc
    exact ⟨hc.1, hc.2⟩

theorem planeIdx_div {row col stride : ℕ} (h : col < stride) :
    (row * stride + col) / stride = row := by
  rw [mul_comm, Nat.mul_add_div (by omega), Nat.div_eq_of_lt h, add_zero]

theorem convStep_even (img : Rgb) (ys us vs : ℕ) (st : Buf × Buf × Buf) (y x : ℕ)
    (hx : x < img.width) (hy : y < img.height)
    (hyi : y * ys + x < st.1.len) (hui : y / 2 * us + x / 2 < st.2.1.len)
    (hvi : y / 2 * vs + x / 2 < st.2.2.len)
    (hpar : y % 2 = 0 ∧ x % 2 = 0) :
    convStep img ys us vs st (y, x) = some
      (⟨st.1.len, fun j => if j = y * ys + x
          then y_val (pixR img x y) (pixG img x y) (pixB img x y) else st.1.val j⟩,
       ⟨st.2.1.len, fun j => if j = y / 2 * us + x / 2
          then u_val (pixR img x y) (pixG img x y) (pixB img x y) else st.2.1.val j⟩,
       ⟨st.2.2.len, fun j => if j = y / 2 * vs + x / 2
          then v_val (pixR img x y) (pixG img x y) (pixB img x y) else st.2.2.val j⟩) := by
  unfold convStep getPixel bufSet
  simp only [if_pos (And.intro hx hy)]
  simp only [if_pos hyi, if_pos hui, if_pos hvi, if_pos hpar]
  rfl

theorem convStep_skip (img : Rgb) (ys us vs : ℕ) (st : Buf × Buf × Buf) (y x : ℕ)
    (hx : x < img.width) (hy : y < img.height)
    (hyi : y * ys + x < st.1.len)
    (hpar : ¬ (y % 2 = 0 ∧ x % 2 = 0)) :
    convStep img ys us vs st (y, x) = some
      (⟨st.1.len, fun j => if j = y * ys + x
          then y_val (pixR img x y) (pixG img x y) (pixB img x y) else st.1.val j⟩,
       st.2.1, st.2.2) := by
  unfold convStep getPixel bufSet
  simp only [if_pos (And.intro hx hy)]
  simp only [if_pos hyi, if_neg hpar]
  rfl

theorem rowFold_spec (img : Rgb) (w h ys us vs : ℕ)
    (himgw : img.width = w) (himgh : img.height = h) (hh : h % 2 = 0)
    (hys : w ≤ ys) (hus : (w + 1) / 2 ≤ us) (hvs : (w + 1) / 2 ≤ vs)
    (y : ℕ) (hy : y < h) (st : Buf × Buf × Buf) (hlen : planeLens h ys us vs st)
    (m : ℕ) (hm : m ≤ w) :
    ∃ st', List.foldlM (convStep img ys us vs) st
        ((List.range m).map (fun x => (y, x))) = some st' ∧
      planeLens h ys us vs st' ∧
      (∀ x, x < m → y % 2 = 0 → x % 2 = 0 →
        st'.2.1.val (y / 2 * us + x / 2) = u_val (pixR img x y) (pixG img x y) (pixB img x y) ∧
        st'.2.2.val (y / 2 * vs + x / 2) = v_val (pixR img x y) (pixG img x y) (pixB img x y)) ∧
      (∀ i, y % 2 ≠ 0 ∨ i / us ≠ y / 2 → st'.2.1.val i = st.2.1.val i) ∧
      (∀ i, y % 2 ≠ 0 ∨ i / vs ≠ y / 2 → st'.2.2.val i = st.2.2.val i) := by
  induction m with
  | zero =>
    refine ⟨st, by simp, hlen, ?_, fun i _ => rfl, fun i _ => rfl⟩
    intro x hx
    omega
  | succ n ih =>
    obtain ⟨st', hfold, hlen', hcontent, hpresU, hpresV⟩ := ih (by omega)
    have hxw : n < img.width := by omega
    have hyh : y < img.height := by omega
    have hyi : y * ys + n < st'.1.len := by
      have h1 : y * ys + ys ≤ h * ys := by
        calc y * ys + ys = (y + 1) * ys := by ring
          _ ≤ h * ys := Nat.mul_le_mul_right ys (by omega)
      have h2 : n < ys := by omega
      rw [hlen'.1]
      omega
    by_cases hpar : y % 2 = 0 ∧ n % 2 = 0
    · -- chroma-writing step
      have hui : y / 2 * us + n / 2 < st'.2.1.len := by
        have h1 : y / 2 * us + us ≤ h / 2 * us := by
          calc y / 2 * us + us = (y / 2 + 1) * us := by ring
            _ ≤ h / 2 * us := Nat.mul_le_mul_right us (by omega)
        have h2 : n / 2 < us := by omega
        rw [hlen'.2.1]
        omega
      have hvi : y / 2 * vs + n / 2 < st'.2.2.len := by
        have h1 : y / 2 * vs + vs ≤ h / 2 * vs := by
          calc y / 2 * vs + vs = (y / 2 + 1) * vs := by ring
            _ ≤ h / 2 * vs := Nat.mul_le_mul_right vs (by omega)
        have h2 : n / 2 < vs := by omega
        rw [hlen'.2.2]
        omega
      have hstep := convStep_even img ys us vs st' y n hxw hyh hyi hui hvi hpar
      have hfull : List.foldlM (convStep img ys us vs) st
          ((List.range (n + 1)).map (fun x => (y, x))) = some
          (⟨st'.1.len, fun j => if j = y * ys + n
              then y_val (pixR img n y) (pixG img n y) (pixB img n y) else st'.1.val j⟩,
           ⟨st'.2.1.len, fun j => if j = y / 2 * us + n / 2
              then u_val (pixR img n y) (pixG img n y) (pixB img n y) else st'.2.1.val j⟩,
           ⟨st'.2.2.len, fun j => if j = y / 2 * vs + n / 2
              then v_val (pixR img n y) (pixG img n y) (pixB img n y) else st'.2.2.val j⟩) := by
        rw [List.range_succ, List.map_append, List.foldlM_append, hfold]
        simp [hstep]
      refine ⟨_, hfull, ⟨hlen'.1, hlen'.2.1, hlen'.2.2⟩, ?_, ?_, ?_⟩
      · intro x hx hy2 hx2
        rcases Nat.lt_succ_iff_lt_or_eq.mp hx with hxlt | hxeq
        · have hne_u : y / 2 * us + x / 2 ≠ y / 2 * us + n / 2 := by
            have : x / 2 < n / 2 := by omega
            omega
          have hne_v : y / 2 * vs + x / 2 ≠ y / 2 * vs + n / 2 := by
            have : x / 2 < n / 2 := by omega
            omega
          have hc := hcontent x hxlt hy2 hx2
          constructor
          · show (if y / 2 * us + x / 2 = y / 2 * us + n / 2
                then u_val (pixR img n y) (pixG img n y) (pixB img n y)
                else st'.2.1.val (y / 2 * us + x / 2)) = _
            rw [if_neg hne_u]
            exact hc.1
          · show (if y / 2 * vs + x / 2 = y / 2 * vs + n / 2
                then v_val (pixR img n y) (pixG img n y) (pixB img n y)
                else st'.2.2.val (y / 2 * vs + x / 2)) = _
            rw [if_neg hne_v]
            exact hc.2
        · subst hxeq
          constructor
          · show (if y / 2 * us + x / 2 = y / 2 * us + x / 2
                then u_val (pixR img x y) (pixG img x y) (pixB img x y)
                else st'.2.1.val (y / 2 * us + x / 2)) = _
            rw [if_pos rfl]
          · show (if y / 2 * vs + x / 2 = y / 2 * vs + x / 2
                then v_val (pixR img x y) (pixG img x y) (pixB img x y)
                else st'.2.2.val (y / 2 * vs + x / 2)) = _
            rw [if_pos rfl]
      · intro i hi
        rcases hi with hyodd | hrow
        · exact absurd hpar.1 hyodd
        · have h2 : n / 2 < us := by omega
          have hne : i ≠ y / 2 * us + n / 2 := by
            intro hcon
            apply hrow
            rw [hcon, planeIdx_div h2]
          show (if i = y / 2 * us + n / 2
              then u_val (pixR img n y) (pixG img n y) (pixB img n y)
              else st'.2.1.val i) = _
          rw [if_neg hne]
          exact hpresU i (Or.inr hrow)
      · intro i hi
        rcases hi with hyodd | hrow
        · exact absurd hpar.1 hyodd
        · have h2 : n / 2 < vs := by omega
          have hne : i ≠ y / 2 * vs + n / 2 := by
            intro hcon
            apply hrow
            rw [hcon, planeIdx_div h2]
          show (if i = y / 2 * vs + n / 2
              then v_val (pixR img n y) (pixG img n y) (pixB img n y)
              else st'.2.2.val i) = _
          rw [if_neg hne]
          exact hpresV i (Or.inr hrow)
    · -- luma-only step
      have hstep := convStep_skip img ys us vs st' y n hxw hyh hyi hpar
      have hfull : List.foldlM (convStep img ys us vs) st
          ((List.range (n + 1)).map (fun x => (y, x))) = some
          (⟨st'.1.len, fun j => if j = y * ys + n
              then y_val (pixR img n y) (pixG img n y) (pixB img n y) else st'.1.val j⟩,
           st'.2.1, st'.2.2) := by
        rw [List.range_succ, List.map_append, List.foldlM_append, hfold]
        simp [hstep]
      refine ⟨_, hfull, ⟨hlen'.1, hlen'.2.1, hlen'.2.2⟩, ?_, hpresU, hpresV⟩
      intro x hx hy2 hx2
      have hxlt : x < n := by
        rcases Nat.lt_succ_iff_lt_or_eq.mp hx with h | h
        · exact h
        · exfalso; exact hpar ⟨hy2, h ▸ hx2⟩
      exact hcontent x hxlt hy2 hx2

theorem convFold_spec (img : Rgb) (w h ys us vs : ℕ)
    (himgw : img.width = w) (himgh : img.height = h) (hh : h % 2 = 0)
    (hys : w ≤ ys) (hus : (w + 1) / 2 ≤ us) (hvs : (w + 1) / 2 ≤ vs)
    (k : ℕ) (hk : k ≤ h) :
    ∃ st', List.foldlM (convStep img ys us vs)
        (⟨h * ys, fun _ => 0⟩, ⟨h / 2 * us, fun _ => 0⟩, ⟨h / 2 * vs, fun _ => 0⟩)
        ((List.range k).flatMap (fun y => (List.range w).map (fun x => (y, x))))
        = some st' ∧
      planeLens h ys us vs st' ∧
      (∀ y0 x0, y0 < k → x0 < w → y0 % 2 = 0 → x0 % 2 = 0 →
        st'.2.1.val (y0 / 2 * us + x0 / 2)
            = u_val (pixR img x0 y0) (pixG img x0 y0) (pixB img x0 y0) ∧
        st'.2.2.val (y0 / 2 * vs + x0 / 2)
            = v_val (pixR img x0 y0) (pixG img x0 y0) (pixB img x0 y0)) := by
  induction k with
  | zero =>
    refine ⟨(⟨h * ys, fun _ => 0⟩, ⟨h / 2 * us, fun _ => 0⟩, ⟨h / 2 * vs, fun _ => 0⟩),
      by simp, ⟨rfl, rfl, rfl⟩, ?_⟩
    intro y0 x0 hy0
    omega
  | succ k ih =>
    obtain ⟨stk, hfoldk, hlenk, hcontentk⟩ := ih (by omega)
    obtain ⟨st', hrow, hlen', hrowContent, hpresU, hpresV⟩ :=
      rowFold_spec img w h ys us vs himgw himgh hh hys hus hvs k (by omega) stk hlenk w le_rfl
    have hfull : List.foldlM (convStep img ys us vs)
        (⟨h * ys, fun _ => 0⟩, ⟨h / 2 * us, fun _ => 0⟩, ⟨h / 2 * vs, fun _ => 0⟩)
        ((List.range (k + 1)).flatMap (fun y => (List.range w).map (fun x => (y, x))))
        = some st' := by
      rw [List.range_succ, List.flatMap_append, List.foldlM_append, hfoldk]
      simpa using hrow
    refine ⟨st', hfull, hlen', ?_⟩
    intro y0 x0 hy0 hx0 hy2 hx2
    rcases Nat.lt_succ_iff_lt_or_eq.mp hy0 with hlt | heq
    · have hcol_u : x0 / 2 < us := by omega
      have hcol_v : x0 / 2 < vs := by omega
      have hcold := hcontentk y0 x0 hlt hx0 hy2 hx2
      by_cases hk2 : k % 2 = 0
      · have hrowU : (y0 / 2 * us + x0 / 2) / us ≠ k / 2 := by
          rw [planeIdx_div hcol_u]
          omega
        have hrowV : (y0 / 2 * vs + x0 / 2) / vs ≠ k / 2 := by
          rw [planeIdx_div hcol_v]
          omega
        rw [hpresU _ (Or.inr hrowU), hpresV _ (Or.inr hrowV)]
        exact hcold
      · rw [hpresU _ (Or.inl hk2), hpresV _ (Or.inl hk2)]
        exact hcold
    · subst heq
      exact hrowContent x0 hx0 hy2 hx2

/-- C5 (amended): for a raster of the target geometry with even height and
ffmpeg-conformant strides (`y_stride ≥ w`, chroma strides `≥ ceil(w/2)`) the
conversion succeeds, and for every 2×2 block with even-row, even-column
origin `(y0, x0)` the chroma bytes stored at byte offset
`(y0/2) * stride + x0/2` of the U and V planes (each plane using its own
stride) are `u_val`/`v_val` of the top-left sample `(x0, y0)` of that block
only — the truncations of the binary32 evaluations of
`-0.148*R - 0.291*G + 0.439*B + 128` and `0.439*R - 0.368*G - 0.071*B + 128`
as the source computes them (point sampling, no averaging). -/
theorem c5_chroma_block_sampling (img : Rgb) (w h ys us vs : ℕ)
    (himgw : img.width = w) (himgh : img.height = h) (hh : h % 2 = 0)
    (hys : w ≤ ys) (hus : (w + 1) / 2 ≤ us) (hvs : (w + 1) / 2 ≤ vs) :
    ∃ yb ub vb, rgb_to_yuv420p img w h ys us vs = some (yb, ub, vb) ∧
      ∀ y0 x0, y0 < h → x0 < w → y0 % 2 = 0 → x0 % 2 = 0 →
        ub.val (y0 / 2 * us + x0 / 2)
            = u_val (pixR img x0 y0) (pixG img x0 y0) (pixB img x0 y0) ∧
        vb.val (y0 / 2 * vs + x0 / 2)
            = v_val (pixR img x0 y0) (pixG img x0 y0) (pixB img x0 y0) := by
  obtain ⟨st', hfold, _, hcontent⟩ :=
    convFold_spec img w h ys us vs himgw himgh hh hys hus hvs h le_rfl
  exact ⟨st'.1, st'.2.1, st'.2.2, hfold, hcontent⟩

/-- C5 (witness): the amended chroma theorem instantiated on a concrete 2×2
raster with constant pixel `(26, 70, 31)` and strides `(2, 1, 1)`. -/
theorem c5_chroma_block_sampling_witness :
    (2 : ℕ) % 2 = 0 ∧ (∃ yb ub vb,
      rgb_to_yuv420p ⟨2, 2, fun _ _ => (26, 70, 31)⟩ 2 2 2 1 1 = some (yb, ub, vb) ∧
      ∀ y0 x0, y0 < 2 → x0 < 2 → y0 % 2 = 0 → x0 % 2 = 0 →
        ub.val (y0 / 2 * 1 + x0 / 2)
            = u_val (pixR ⟨2, 2, fun _ _ => (26, 70, 31)⟩ x0 y0)
                (pixG ⟨2, 2, fun _ _ => (26, 70, 31)⟩ x0 y0)
                (pixB ⟨2, 2, fun _ _ => (26, 70, 31)⟩ x0 y0) ∧
        vb.val (y0 / 2 * 1 + x0 / 2)
            = v_val (pixR ⟨2, 2, fun _ _ => (26, 70, 31)⟩ x0 y0)
                (pixG ⟨2, 2, fun _ _ => (26, 70, 31)⟩ x0 y0)
                (pixB ⟨2, 2, fun _ _ => (26, 70, 31)⟩ x0 y0)) :=
  ⟨rfl, c5_chroma_block_sampling ⟨2, 2, fun _ _ => (26, 70, 31)⟩ 2 2 2 1 1
    rfl rfl rfl (by norm_num) (by norm_num) (by norm_num)⟩

/-- C5 (counterexample): converting a 2×2 raster whose every pixel is
`(1, 220, 112)`, the U byte stored for the block at origin `(0,0)` is 112,
but the exact-arithmetic truncation of the spec's formula is
`trunc(-0.148*1 - 0.291*220 + 0.439*112 + 128) = trunc(113.000) = 113`: the
source's binary32 evaluation gives `112.99999...`, so the stored chroma is
not the truncation of the formula read in exact arithmetic. -/
theorem c5_chroma_exact_trunc_fails :
    ((rgb_to_yuv420p ⟨2, 2, fun _ _ => (1, 220, 112)⟩ 2 2 2 1 1).map
        (fun st => (st.2.1.val 0 : ℤ))) = some 112 ∧
      uSpecTrunc 1 220 112 = 113 := by
  constructor
  · rfl
  · decide

/-- C3 (counterexample): `"frame.JPG"` has an extension that case-
insensitively matches the allow-list, yet it is not selected — the source's
comparison `ext == "jpg" || ext == "png"` is case-sensitive, so only the
exact lowercase spellings are selected. -/
theorem c3_uppercase_extension_rejected :
    isImagePath "frame.JPG" = false ∧ isImagePath "frame.jpg" = true ∧
      isImagePath "frame.png" = true ∧ isImagePath "frame.PNG" = false := by
  decide

/-- C3 (amended): a directory entry is selected as a candidate frame exactly
when its extension equals `"jpg"` or `"png"` under exact case-sensitive
comparison, and the candidate list is ordered by the deterministic,
locale-independent lexicographic order on paths. -/
theorem c3_selection_and_order (entries : List String) (s : String) :
    (s ∈ candidateFrames entries ↔
      s ∈ entries ∧ (extension s = some "jpg" ∨ extension s = some "png")) ∧
    (candidateFrames entries).Sorted (· ≤ ·) := by
  constructor
  · rw [candidateFrames, List.mem_mergeSort, List.mem_filter]
    constructor
    · rintro ⟨h1, h2⟩
      refine ⟨h1, ?_⟩
      unfold isImagePath at h2
      rcases hext : extension s with _ | e
      · rw [hext] at h2; simp at h2
      · rw [hext] at h2
        simp only [Bool.or_eq_true, beq_iff_eq] at h2
        rcases h2 with h | h
        · exact Or.inl (by rw [h])
        · exact Or.inr (by rw [h])
    · rintro ⟨h1, h2⟩
      refine ⟨h1, ?_⟩
      unfold isImagePath
      rcases h2 with h | h <;> rw [h] <;> simp
  · apply List.Pairwise.imp (fun {a b} h => of_decide_eq_true h)
    apply List.sorted_mergeSort
    · intro a b c hab hbc
      simp only [decide_eq_true_eq] at hab hbc ⊢
      exact le_trans hab hbc
    · intro a b
      simp only [Bool.or_eq_true, decide_eq_true_eq]
      exact le_total a b

theorem receive_and_write_packets_trace {σ π : Type} (X : DriverOps σ π) :
    ∀ (fuel : ℕ) (s : σ) (tr : List (Ev π)) (s' : σ) (tr' : List (Ev π)),
      receive_and_write_packets X fuel s tr = .ok (s', tr') →
      ∃ Δ, tr' = tr ++ Δ ∧
        (∀ e ∈ Δ, (∃ p, e = Ev.emit p) ∨ (∃ p, e = Ev.write p)) ∧
        Δ.filterMap evWrite = Δ.filterMap evEmit := by
  intro fuel
  induction fuel with
  | zero =>
    intro s tr s' tr' h
    simp [receive_and_write_packets] at h
  | succ n ih =>
    intro s tr s' tr' h
    unfold receive_and_write_packets at h
    split at h
    · -- receive_packet returned Ok p
      rename_i p s2 _
      split at h
      · -- write succeeded, loop continues
        obtain ⟨Δ', hΔ', hmem, hwr⟩ := ih s2 (tr ++ [.emit p, .write p]) s' tr' h
        refine ⟨Ev.emit p :: Ev.write p :: Δ', ?_, ?_, ?_⟩
        · rw [hΔ']
          simp
        · intro e he
          rcases List.mem_cons.mp he with rfl | he
          · exact Or.inl ⟨p, rfl⟩
          rcases List.mem_cons.mp he with rfl | he
          · exact Or.inr ⟨p, rfl⟩
          exact hmem e he
        · simp only [List.filterMap_cons, evWrite, evEmit]
          rw [hwr]
      · exact absurd h (by simp)
    · -- Error::Other { errno }
      rename_i errno s2 _
      split at h
      · simp only [RunRes.ok.injEq, Prod.mk.injEq] at h
        exact ⟨[], by simp [h.2], by simp, by simp⟩
      · exact absurd h (by simp)
    · -- Error::Eof
      rename_i s2 _
      simp only [RunRes.ok.injEq, Prod.mk.injEq] at h
      exact ⟨[], by simp [h.2], by simp, by simp⟩
    · exact absurd h (by simp)

theorem processFrames_trace {σ π : Type} (X : DriverOps σ π) (w h ys us vs fuel : ℕ) :
    ∀ (l : List (ℕ × Rgb)) (s : σ) (tr : List (Ev π)) (s' : σ) (tr' : List (Ev π)),
      processFrames X w h ys us vs fuel l s tr = .ok (s', tr') →
      ∃ Δ, tr' = tr ++ Δ ∧
        (∀ e ∈ Δ, (∃ i, e = Ev.sendFrame i) ∨ (∃ p, e = Ev.emit p) ∨ (∃ p, e = Ev.write p)) ∧
        Δ.filterMap evWrite = Δ.filterMap evEmit ∧
        Δ.filterMap evPts = l.map (fun q => (q.1 : ℤ)) := by
  intro l
  induction l with
  | nil =>
    intro s tr s' tr' h
    simp only [processFrames, RunRes.ok.injEq, Prod.mk.injEq] at h
    exact ⟨[], by simp [h.2], by simp, by simp, by simp⟩
  | cons q rest ih =>
    intro s tr s' tr' h
    obtain ⟨i, im⟩ := q
    unfold processFrames at h
    split at h
    · exact absurd h (by simp)
    · split at h
      · exact absurd h (by simp)
      · rename_i s1 _
        split at h
        · rename_i s2 tr2 hdrain
          obtain ⟨Δd, hΔd, hdmem, hdwr⟩ :=
            receive_and_write_packets_trace X fuel s1 (tr ++ [.sendFrame (i : ℤ)]) s2 tr2 hdrain
          obtain ⟨Δr, hΔr, hrmem, hrwr, hrpts⟩ := ih s2 tr2 s' tr' h
          refine ⟨Ev.sendFrame (i : ℤ) :: (Δd ++ Δr), ?_, ?_, ?_, ?_⟩
          · rw [hΔr, hΔd]
            simp
          · intro e he
            rcases List.mem_cons.mp he with rfl | he
            · exact Or.inl ⟨(i : ℤ), rfl⟩
            rcases List.mem_append.mp he with he | he
            · rcases hdmem e he with h1 | h1
              · exact Or.inr (Or.inl h1)
              · exact Or.inr (Or.inr h1)
            · exact hrmem e he
          · simp only [List.filterMap_cons, evWrite, evEmit, List.filterMap_append]
            rw [hdwr, hrwr]
          · have hdpts : Δd.filterMap evPts = [] := by
              rw [List.filterMap_eq_nil_iff]
              intro e he
              rcases hdmem e he with ⟨p, rfl⟩ | ⟨p, rfl⟩ <;> rfl
            simp only [List.filterMap_cons, evPts, List.filterMap_append, hdpts, hrpts]
            simp
        · exact absurd h (by simp)
        · exact absurd h (by simp)
        · exact absurd h (by simp)

theorem mainModel_ok_shape {σ π : Type} (X : DriverOps σ π) (img0 : Rgb) (rest : List Rgb)
    (fps : ℤ) (ys us vs fuel : ℕ) (tr : List (Ev π))
    (h : mainModel X (img0 :: rest) fps ys us vs fuel = .ok tr) :
    ∃ Δp Δd, tr = Ev.openOut :: Ev.setTimeBase 1 fps :: Ev.header ::
        (Δp ++ Ev.sendEof :: (Δd ++ [Ev.trailer])) ∧
      (∀ e ∈ Δp, (∃ i, e = Ev.sendFrame i) ∨ (∃ p, e = Ev.emit p) ∨ (∃ p, e = Ev.write p)) ∧
      Δp.filterMap evWrite = Δp.filterMap evEmit ∧
      Δp.filterMap evPts = (img0 :: rest).enum.map (fun q => (q.1 : ℤ)) ∧
      (∀ e ∈ Δd, (∃ p, e = Ev.emit p) ∨ (∃ p, e = Ev.write p)) ∧
      Δd.filterMap evWrite = Δd.filterMap evEmit := by
  rw [show mainModel X (img0 :: rest) fps ys us vs fuel =
      (match X.openOut with
      | .error e => .err e
      | .ok _ =>
        match X.openEnc with
        | .error e => .err e
        | .ok s0 =>
          match X.writeHeader with
          | .error e => .err e
          | .ok _ =>
            match processFrames X img0.width img0.height ys us vs fuel
                (img0 :: rest).enum s0 [.openOut, .setTimeBase 1 fps, .header] with
            | .err e => .err e
            | .panic => .panic
            | .diverge => .diverge
            | .ok (s1, tr1) =>
              match X.send_eof s1 with
              | .error e => .err e
              | .ok s2 =>
                match receive_and_write_packets X fuel s2 (tr1 ++ [.sendEof]) with
                | .err e => .err e
                | .panic => .panic
                | .diverge => .diverge
                | .ok (_, tr2) =>
                  match X.write_trailer with
                  | .error e => .err e
                  | .ok _ => .ok (tr2 ++ [.trailer]) : RunRes (List (Ev π))) from rfl] at h
  rcases hO : X.openOut with e | u
  case error => simp only [hO] at h; simp at h
  simp only [hO] at h
  rcases hE : X.openEnc with e | s0
  case error => simp only [hE] at h; simp at h
  simp only [hE] at h
  rcases hH : X.writeHeader with e | u2
  case error => simp only [hH] at h; simp at h
  simp only [hH] at h
  rcases hP : processFrames X img0.width img0.height ys us vs fuel
      (img0 :: rest).enum s0 [Ev.openOut, Ev.setTimeBase 1 fps, Ev.header]
    with a | e | _ | _
  case err => simp only [hP] at h; simp at h
  case panic => simp only [hP] at h; simp at h
  case diverge => simp only [hP] at h; simp at h
  obtain ⟨s1, tr1⟩ := a
  simp only [hP] at h
  rcases hS : X.send_eof s1 with e | s2
  case error => simp only [hS] at h; simp at h
  simp only [hS] at h
  rcases hD : receive_and_write_packets X fuel s2 (tr1 ++ [Ev.sendEof]) with b | e | _ | _
  case err => simp only [hD] at h; simp at h
  case panic => simp only [hD] at h; simp at h
  case diverge => simp only [hD] at h; simp at h
  obtain ⟨s3, tr2⟩ := b
  simp only [hD] at h
  rcases hT : X.write_trailer with e | u3
  case error => simp only [hT] at h; simp at h
  simp only [hT] at h
  simp only [RunRes.ok.injEq] at h
  obtain ⟨Δp, hΔp, hpmem, hpwr, hppts⟩ :=
    processFrames_trace X img0.width img0.height ys us vs fuel
      (img0 :: rest).enum s0
      [Ev.openOut, Ev.setTimeBase 1 fps, Ev.header] s1 tr1 hP
  obtain ⟨Δd, hΔd, hdmem, hdwr⟩ :=
    receive_and_write_packets_trace X fuel s2 (tr1 ++ [Ev.sendEof]) s3 tr2 hD
  refine ⟨Δp, Δd, ?_, hpmem, hpwr, hppts, hdmem, hdwr⟩
  rw [← h, hΔd, hΔp]
  simp

/-- C6: in every successful run the trace is container-open, time-base
configuration, header, then a frame/drain phase, then `send_eof` (flush), a
final drain whose only events are packet emissions and writes, and the
trailer last.  Every packet the encoder emitted — during the active phase or
the flush phase — is written exactly once and in emission order (the list of
written packets equals the list of emitted packets); no write precedes the
header and none follows the trailer. -/
theorem c6_packet_discipline {σ π : Type} (X : DriverOps σ π) (imgs : List Rgb) (fps : ℤ)
    (ys us vs fuel : ℕ) (tr : List (Ev π)) (hne : imgs ≠ [])
    (h : mainModel X imgs fps ys us vs fuel = .ok tr) :
    ∃ mid tailD,
      tr = Ev.openOut :: Ev.setTimeBase 1 fps :: Ev.header ::
        (mid ++ Ev.sendEof :: (tailD ++ [Ev.trailer])) ∧
      (∀ e ∈ mid, (∃ i, e = Ev.sendFrame i) ∨ (∃ p, e = Ev.emit p) ∨ (∃ p, e = Ev.write p)) ∧
      (∀ e ∈ tailD, (∃ p, e = Ev.emit p) ∨ (∃ p, e = Ev.write p)) ∧
      tr.filterMap evWrite = tr.filterMap evEmit := by
  cases imgs with
  | nil => exact absurd rfl hne
  | cons img0 rest =>
    obtain ⟨Δp, Δd, htr, hpmem, hpwr, _, hdmem, hdwr⟩ :=
      mainModel_ok_shape X img0 rest fps ys us vs fuel tr h
    refine ⟨Δp, Δd, htr, hpmem, hdmem, ?_⟩
    rw [htr]
    simp only [List.filterMap_cons, evWrite, evEmit, List.filterMap_append, hpwr, hdwr]
    simp

/-- C9: in every successful run over `N` input images the encoder is
configured with time base `1/fps`, and the presentation timestamps submitted
with the frames are exactly `0, 1, …, N-1` in order — in particular strictly
increasing. -/
theorem c9_time_base_and_pts {σ π : Type} (X : DriverOps σ π) (imgs : List Rgb) (fps : ℤ)
    (ys us vs fuel : ℕ) (tr : List (Ev π)) (hne : imgs ≠ [])
    (h : mainModel X imgs fps ys us vs fuel = .ok tr) :
    tr.filterMap evPts = (List.range imgs.length).map (fun n : ℕ => (n : ℤ)) ∧
    List.Pairwise (fun a b => a < b) (tr.filterMap evPts) ∧
    Ev.setTimeBase 1 fps ∈ tr := by
  cases imgs with
  | nil => exact absurd rfl hne
  | cons img0 rest =>
    obtain ⟨Δp, Δd, htr, hpmem, _, hppts, hdmem, _⟩ :=
      mainModel_ok_shape X img0 rest fps ys us vs fuel tr h
    have hdpts : Δd.filterMap evPts = [] := by
      rw [List.filterMap_eq_nil_iff]
      intro e he
      rcases hdmem e he with ⟨p, rfl⟩ | ⟨p, rfl⟩ <;> rfl
    have hmain : tr.filterMap evPts = (img0 :: rest).enum.map (fun q => (q.1 : ℤ)) := by
      rw [htr]
      simp only [List.filterMap_cons, evPts, List.filterMap_append, hppts, hdpts]
      simp
    have henum : (img0 :: rest).enum.map (fun q => ((q.1 : ℤ))) =
        (List.range (img0 :: rest).length).map (fun n : ℕ => (n : ℤ)) := by
      rw [← List.enum_map_fst (img0 :: rest), List.map_map]
      rfl
    refine ⟨by rw [hmain, henum], ?_, ?_⟩
    · rw [hmain, henum]
      rw [List.pairwise_map]
      exact (List.pairwise_lt_range _).imp (fun hab => by exact_mod_cast hab)
    · rw [htr]
      simp

/-- C7: one step of the drain loop `receive_and_write_packets`: an
`Error::Other` with errno `11` (EAGAIN) or `-11` (`AVERROR(EAGAIN)`) — "no
packet ready right now" — stops the loop with `Ok`, never surfacing as a
failure; `Error::Eof` stops with `Ok`; an `Error::Other` with any other
errno, or any other error, aborts with that error; an available packet is
written to the container immediately and the loop continues. -/
theorem c7_drain_protocol {σ π : Type} (X : DriverOps σ π) (fuel : ℕ) (s : σ)
    (tr : List (Ev π)) :
    (∀ errno s', X.receive_packet s = (.error (.other errno), s') →
        (errno = 11 ∨ errno = -11) →
        receive_and_write_packets X (fuel + 1) s tr = .ok (s', tr)) ∧
    (∀ s', X.receive_packet s = (.error .eof, s') →
        receive_and_write_packets X (fuel + 1) s tr = .ok (s', tr)) ∧
    (∀ errno s', X.receive_packet s = (.error (.other errno), s') →
        ¬ (errno = 11 ∨ errno = -11) →
        receive_and_write_packets X (fuel + 1) s tr = .err (.other errno)) ∧
    (∀ c s', X.receive_packet s = (.error (.misc c), s') →
        receive_and_write_packets X (fuel + 1) s tr = .err (.misc c)) ∧
    (∀ p s', X.receive_packet s = (.ok p, s') → X.write_interleaved p = .ok () →
        receive_and_write_packets X (fuel + 1) s tr
          = receive_and_write_packets X fuel s' (tr ++ [.emit p, .write p])) ∧
    (∀ p s' e, X.receive_packet s = (.ok p, s') → X.write_interleaved p = .error e →
        receive_and_write_packets X (fuel + 1) s tr = .err e) := by
  refine ⟨?_, ?_, ?_, ?_, ?_, ?_⟩
  · intro errno s' hr hok
    unfold receive_and_write_packets
    simp only [hr]
    rw [if_pos hok]
  · intro s' hr
    unfold receive_and_write_packets
    simp only [hr]
  · intro errno s' hr hbad
    unfold receive_and_write_packets
    simp only [hr]
    rw [if_neg hbad]
  · intro c s' hr
    unfold receive_and_write_packets
    simp only [hr]
  · intro p s' hr hw
    unfold receive_and_write_packets
    simp only [hr, hw]
    rw [← receive_and_write_packets.eq_def]
  · intro p s' e hr hw
    unfold receive_and_write_packets
    simp only [hr, hw]

/-- C8: with an empty candidate list the run performs no output-file work at
all — the only event is the printed notice (no container open, no header, no
packet, no trailer) — and it terminates with the success outcome. -/
theorem c8_empty_input_is_success {σ π : Type} (X : DriverOps σ π) (fps : ℤ)
    (ys us vs fuel : ℕ) :
    mainModel X [] fps ys us vs fuel = .ok [Ev.notice] := rfl

/-- C6 (witness): the packet-discipline theorem instantiated on the
concrete run of `Xdemo` over one image. -/
theorem c6_packet_discipline_witness :
    ([demoImg] ≠ ([] : List Rgb)) ∧ (∃ mid tailD,
      demoTr = Ev.openOut :: Ev.setTimeBase 1 10 :: Ev.header ::
        (mid ++ Ev.sendEof :: (tailD ++ [Ev.trailer])) ∧
      (∀ e ∈ mid, (∃ i, e = Ev.sendFrame i) ∨ (∃ p, e = Ev.emit p) ∨ (∃ p, e = Ev.write p)) ∧
      (∀ e ∈ tailD, (∃ p, e = Ev.emit p) ∨ (∃ p, e = Ev.write p)) ∧
      demoTr.filterMap evWrite = demoTr.filterMap evEmit) :=
  ⟨by simp, c6_packet_discipline Xdemo [demoImg] 10 2 1 1 4 demoTr (by simp) rfl⟩

/-- C9 (witness): the time-base / timestamp theorem instantiated on the
concrete run of `Xdemo` over one image. -/
theorem c9_time_base_and_pts_witness :
    ([demoImg] ≠ ([] : List Rgb)) ∧
    (demoTr.filterMap evPts = (List.range [demoImg].length).map (fun n : ℕ => (n : ℤ)) ∧
     List.Pairwise (fun a b => a < b) (demoTr.filterMap evPts) ∧
     Ev.setTimeBase 1 10 ∈ demoTr) :=
  ⟨by simp, c9_time_base_and_pts Xdemo [demoImg] 10 2 1 1 4 demoTr (by simp) rfl⟩

/-- C7 (witness): the drain-protocol theorem applied to `Xdemo` in a state
with no pending packet and not yet flushed: `receive_packet` reports EAGAIN
(errno 11) and the drain loop stops successfully with no write. -/
theorem c7_drain_protocol_witness :
    Xdemo.receive_packet ([], false) = (.error (.other 11), ([], false)) ∧
    receive_and_write_packets Xdemo 1 ([], false) [] = .ok (([], false), []) :=
  ⟨rfl, (c7_drain_protocol Xdemo 0 ([], false) []).1 11 ([], false) rfl (Or.inl rfl)⟩
